import Mathlib

/-!
Verification development for the dependency-propagation engine of `tend`
(`src/flake.rs`).  The planner `compute_update_chain` and the executor
`execute_update_chain` are embedded shallowly: Rust `HashMap`s become
association lists (the list order stands for the hash-iteration order,
which in Rust is arbitrary), `HashSet`s become duplicate-free lists built
by insert-if-absent, and the external commands run by the executor become
an explicit environment of per-repository command outcomes.
-/

/-- `flake_deps : HashMap<String, Vec<String>>` — repo → list of inputs it
depends on.  Association list; `HashMap` guarantees distinct keys, which
theorems assume via `(m.map Prod.fst).Nodup` where needed. -/
abbrev DepsMap : Type := List (String × List String)

/-- A single step in the update chain (`struct UpdateStep`, flake.rs:11-16). -/
structure UpdateStep where
  repo : String
  inputs : List String
deriving DecidableEq, Inhabited

/-- Result of planning.  `ok` embeds `Ok(steps)`, `cycleError` embeds the
`bail!("cycle detected …")` at flake.rs:98-101 (carrying the node set the
message names), and `panicked` marks the `.unwrap()` at flake.rs:112
failing — it is proved unreachable. -/
inductive PlanResult where
  | ok (chain : List UpdateStep)
  | cycleError (unresolved : List String)
  | panicked
deriving DecidableEq

/-- `HashMap::get` on an association list: first entry with a matching key. -/
def lookupA (m : DepsMap) (k : String) : Option (List String) :=
  match m with
  | [] => none
  | (r, ds) :: rest => if r == k then some ds else lookupA rest k

/-- Declared dependencies of `repo`, empty when absent
(`if let Some(deps) = flake_deps.get(repo)` treats absence as no edges). -/
def depsOf (m : DepsMap) (r : String) : List String :=
  (lookupA m r).getD []

/-- The reverse index (flake.rs:30-35): `dependents m d` is the list of
repos whose declared deps contain `d`, in map-iteration order.  It is only
consumed by the BFS, which deduplicates on insert, so multiplicity of a
duplicated dep inside one repo's list is immaterial. -/
def dependents (m : DepsMap) (d : String) : List String :=
  (m.filter (fun p => p.2.contains d)).map Prod.fst

/-- One BFS round (flake.rs:43-49): fold `if affected.insert(dep) {
queue.push_back(dep) }` over a dependents list.  State is
(affected-so-far, newly-enqueued). -/
def insertAll (st : List String × List String) (ds : List String) :
    List String × List String :=
  ds.foldl (fun p d => if p.1.contains d then p else (p.1 ++ [d], p.2 ++ [d])) st

/-- BFS loop (flake.rs:42-50).  Fuel bounds the number of pops: each pop
consumes one queue element and every enqueue inserts a fresh element of
`m.map Prod.fst` into `affected`, so `m.length + 1` pops suffice. -/
def bfsAux (m : DepsMap) : Nat → List String → List String → List String
  | _, [], aff => aff
  | 0, _ :: _, aff => aff
  | fuel + 1, cur :: rest, aff =>
      let st := insertAll (aff, []) (dependents m cur)
      bfsAux m fuel (rest ++ st.2) st.1

/-- The affected set (flake.rs:38-50): repos transitively depending on
`changed`, in discovery order. -/
def affectedOf (m : DepsMap) (c : String) : List String :=
  bfsAux m (m.length + 1) [c] []

/-- In-degree of an affected repo in the induced subgraph (flake.rs:61-72):
one per declared dep that is affected **or equals `changed`** (the
`affected.contains(dep) || dep == changed` guard at flake.rs:66). -/
def inDegOf (m : DepsMap) (c : String) (aff : List String) (r : String) : Nat :=
  (depsOf m r).countP (fun d => aff.contains d || d == c)

/-- Forward adjacency of the induced subgraph (flake.rs:67): the repos
pushed onto `forward[d]`, in affected-iteration order, once per occurrence
of `d` in their dep lists. -/
def forwardOf (m : DepsMap) (c : String) (aff : List String) (d : String) :
    List String :=
  (aff.map (fun r =>
    ((depsOf m r).filter (fun dep => (aff.contains dep || dep == c) && dep == d)).map
      (fun _ => r))).flatten

/-- `in_degree.get_mut` lookup on the mutable in-degree table. -/
def lookupN (l : List (String × Nat)) (k : String) : Option Nat :=
  match l with
  | [] => none
  | (a, b) :: rest => if a == k then some b else lookupN rest k

/-- In-place update of the in-degree table entry for `k`. -/
def setAssoc (l : List (String × Nat)) (k : String) (v : Nat) :
    List (String × Nat) :=
  match l with
  | [] => []
  | (a, b) :: rest =>
      if a == k then (a, v) :: rest else (a, b) :: setAssoc rest k v

/-- One neighbour decrement (flake.rs:86-92): `if let Some(deg) =
in_degree.get_mut(dep) { *deg -= 1; if *deg == 0 { push } }`.  `Nat`
subtraction stands for the `usize` decrement; in every state reachable
from `compute_update_chain` the entry is positive when decremented, so
no underflow behaviour is exercised. -/
def decOne (p : List (String × Nat) × List String) (dep : String) :
    List (String × Nat) × List String :=
  match lookupN p.1 dep with
  | none => p
  | some deg =>
      let m' := setAssoc p.1 dep (deg - 1)
      if deg - 1 == 0 then (m', p.2 ++ [dep]) else (m', p.2)

/-- Kahn's queue loop (flake.rs:83-95).  Fuel bounds pops; each queued
node is an affected repo and is queued at most once in reachable states. -/
def kahnLoop (fwd : String → List String) :
    Nat → List String → List (String × Nat) → List String → List String
  | _, [], _, sorted => sorted
  | 0, _ :: _, _, sorted => sorted
  | fuel + 1, repo :: rest, inDeg, sorted =>
      let st := (fwd repo).foldl decOne (inDeg, [])
      kahnLoop fwd fuel (rest ++ st.2) st.1 (sorted ++ [repo])

/-- The initial Kahn queue (flake.rs:77-81): zero-in-degree affected repos
in table-iteration order. -/
def initQueueOf (m : DepsMap) (c : String) : List String :=
  (affectedOf m c).filter (fun r => inDegOf m c (affectedOf m c) r == 0)

/-- The list produced by Kahn's sort (flake.rs:74-95). -/
def sortedOf (m : DepsMap) (c : String) : List String :=
  kahnLoop (forwardOf m c (affectedOf m c)) ((affectedOf m c).length + 1)
    (initQueueOf m c)
    ((affectedOf m c).map (fun r => (r, inDegOf m c (affectedOf m c) r))) []

/-- Step materialization (flake.rs:107-126): walk `sorted`, keep the deps
already in `updated_so_far`, emit a step only when that filter is
nonempty, and only then add the repo to `updated_so_far`.  `none` models
the `.unwrap()` panic on a missing key. -/
def materializeSteps (m : DepsMap) :
    List String → List String → List UpdateStep → Option (List UpdateStep)
  | [], _, steps => some steps
  | r :: rest, updated, steps =>
      match lookupA m r with
      | none => none
      | some deps =>
          let inputs := deps.filter (fun d => updated.contains d)
          if inputs.isEmpty then materializeSteps m rest updated steps
          else materializeSteps m rest (updated ++ [r]) (steps ++ [⟨r, inputs⟩])

/-- `compute_update_chain` (flake.rs:25-129): early exit on an empty
affected set, the cycle bail-out when Kahn's sort emitted fewer nodes than
the affected set (carrying `affected.difference(&sorted)`), and otherwise
the materialized steps, seeded with `updated_so_far = {changed}`. -/
def compute_update_chain (c : String) (m : DepsMap) : PlanResult :=
  if (affectedOf m c).isEmpty then .ok []
  else if (sortedOf m c).length != (affectedOf m c).length then
    .cycleError ((affectedOf m c).filter (fun r => !(sortedOf m c).contains r))
  else
    match materializeSteps m (sortedOf m c) [c] [] with
    | some steps => .ok steps
    | none => .panicked

/-! ### Basic lemmas about the reverse index and lookups -/

theorem mem_dependents {m : DepsMap} {d r : String} :
    r ∈ dependents m d ↔ ∃ ds, (r, ds) ∈ m ∧ d ∈ ds := by
  unfold dependents
  simp only [List.mem_map, List.mem_filter]
  constructor
  · rintro ⟨⟨r', ds⟩, ⟨hm, hc⟩, rfl⟩
    exact ⟨ds, hm, List.elem_iff.mp hc⟩
  · rintro ⟨ds, hm, hd⟩
    exact ⟨(r, ds), ⟨hm, List.elem_iff.mpr hd⟩, rfl⟩

theorem dependents_subset_keys {m : DepsMap} {d r : String}
    (h : r ∈ dependents m d) : r ∈ m.map Prod.fst := by
  obtain ⟨ds, hm, -⟩ := mem_dependents.mp h
  exact List.mem_map.mpr ⟨(r, ds), hm, rfl⟩

theorem lookupA_isSome {m : DepsMap} {k : String}
    (h : k ∈ m.map Prod.fst) : (lookupA m k).isSome := by
  induction m with
  | nil => simp at h
  | cons p rest ih =>
      obtain ⟨a, b⟩ := p
      by_cases hak : a = k
      · simp [lookupA, hak]
      · have : k ∈ rest.map Prod.fst := by
          rcases List.mem_map.mp h with ⟨q, hq, hk⟩
          rcases List.mem_cons.mp hq with rfl | hq'
          · exact absurd hk hak
          · exact List.mem_map.mpr ⟨q, hq', hk⟩
        simpa [lookupA, hak] using ih this

theorem lookupA_eq_of_mem {m : DepsMap} {k : String} {ds : List String}
    (hmem : (k, ds) ∈ m) (hnd : (m.map Prod.fst).Nodup) :
    lookupA m k = some ds := by
  induction m with
  | nil => simp at hmem
  | cons p rest ih =>
      obtain ⟨a, b⟩ := p
      simp only [List.map_cons, List.nodup_cons] at hnd
      rcases List.mem_cons.mp hmem with heq | hmem'
      · injection heq with h1 h2
        subst h1; subst h2
        simp [lookupA]
      · have hk : k ∈ rest.map Prod.fst :=
          List.mem_map.mpr ⟨(k, ds), hmem', rfl⟩
        have hak : ¬a = k := fun h => hnd.1 (h ▸ hk)
        simpa [lookupA, hak] using ih hmem' hnd.2

/-! ### Invariants of the BFS over the reverse index -/

theorem insertAll_cons (st : List String × List String) (d : String)
    (ds : List String) :
    insertAll st (d :: ds) =
      insertAll (if st.1.contains d then st else (st.1 ++ [d], st.2 ++ [d])) ds :=
  rfl

theorem insertAll_fst_mono {ds : List String} {st : List String × List String}
    {x : String} (hx : x ∈ st.1) : x ∈ (insertAll st ds).1 := by
  induction ds generalizing st with
  | nil => exact hx
  | cons d ds ih =>
      rw [insertAll_cons]
      by_cases hc : st.1.contains d = true
      · rw [if_pos hc]; exact ih hx
      · rw [if_neg hc]
        exact ih (List.mem_append_left _ hx)

theorem insertAll_fst_src {ds : List String} {st : List String × List String}
    {x : String} (hx : x ∈ (insertAll st ds).1) : x ∈ st.1 ∨ x ∈ ds := by
  induction ds generalizing st with
  | nil => exact Or.inl hx
  | cons d ds ih =>
      rw [insertAll_cons] at hx
      by_cases hc : st.1.contains d = true
      · rw [if_pos hc] at hx
        rcases ih hx with h | h
        · exact Or.inl h
        · exact Or.inr (List.mem_cons_of_mem _ h)
      · rw [if_neg hc] at hx
        rcases ih hx with h | h
        · rcases List.mem_append.mp h with h' | h'
          · exact Or.inl h'
          · exact Or.inr (by rw [List.mem_singleton.mp h']; exact List.mem_cons_self _ _)
        · exact Or.inr (List.mem_cons_of_mem _ h)

theorem insertAll_mem {ds : List String} {st : List String × List String}
    {d : String} (hd : d ∈ ds) : d ∈ (insertAll st ds).1 := by
  induction ds generalizing st with
  | nil => simp at hd
  | cons e ds ih =>
      rw [insertAll_cons]
      rcases List.mem_cons.mp hd with rfl | hd'
      · by_cases hc : st.1.contains d = true
        · rw [if_pos hc]
          exact insertAll_fst_mono (List.elem_iff.mp hc)
        · rw [if_neg hc]
          exact insertAll_fst_mono
            (List.mem_append_right _ (List.mem_singleton_self d))
      · by_cases hc : st.1.contains e = true
        · rw [if_pos hc]; exact ih hd'
        · rw [if_neg hc]; exact ih hd'

theorem insertAll_snd_src {ds : List String} {st : List String × List String}
    {x : String} (hx : x ∈ (insertAll st ds).2) :
    x ∈ st.2 ∨ x ∈ (insertAll st ds).1 := by
  induction ds generalizing st with
  | nil => exact Or.inl hx
  | cons d ds ih =>
      rw [insertAll_cons] at hx ⊢
      by_cases hc : st.1.contains d = true
      · rw [if_pos hc] at hx ⊢
        exact ih hx
      · rw [if_neg hc] at hx ⊢
        rcases ih hx with h | h
        · rcases List.mem_append.mp h with h' | h'
          · exact Or.inl h'
          · refine Or.inr (insertAll_fst_mono ?_)
            exact List.mem_append_right _ (by
              rw [List.mem_singleton.mp h']; exact List.mem_singleton_self d)
        · exact Or.inr h

theorem bfs_nil (m : DepsMap) (fuel : Nat) (aff : List String) :
    bfsAux m fuel [] aff = aff := by cases fuel <;> rfl

theorem bfs_cons (m : DepsMap) (fuel : Nat) (cur : String) (rest aff : List String) :
    bfsAux m (fuel + 1) (cur :: rest) aff =
      bfsAux m fuel (rest ++ (insertAll (aff, []) (dependents m cur)).2)
        (insertAll (aff, []) (dependents m cur)).1 := rfl

theorem bfs_mono (m : DepsMap) :
    ∀ (fuel : Nat) (q aff : List String), ∀ x ∈ aff, x ∈ bfsAux m fuel q aff := by
  intro fuel
  induction fuel with
  | zero => intro q aff x hx; cases q <;> exact hx
  | succ fuel ih =>
      intro q aff x hx
      cases q with
      | nil => exact hx
      | cons cur rest =>
          rw [bfs_cons]
          exact ih _ _ x (insertAll_fst_mono hx)

theorem bfs_subset_keys (m : DepsMap) :
    ∀ (fuel : Nat) (q aff : List String),
      (∀ x ∈ aff, x ∈ m.map Prod.fst) →
      ∀ x ∈ bfsAux m fuel q aff, x ∈ m.map Prod.fst := by
  intro fuel
  induction fuel with
  | zero => intro q aff h x hx; cases q <;> exact h x hx
  | succ fuel ih =>
      intro q aff h x hx
      cases q with
      | nil => exact h x hx
      | cons cur rest =>
          rw [bfs_cons] at hx
          refine ih _ _ ?_ x hx
          intro y hy
          rcases insertAll_fst_src hy with h' | h'
          · exact h y h'
          · exact dependents_subset_keys h'

theorem bfs_witness (m : DepsMap) (c : String) :
    ∀ (fuel : Nat) (q aff : List String),
      (∀ x ∈ q, x = c ∨ x ∈ aff) →
      (∀ r ∈ aff, ∃ x, (x = c ∨ x ∈ aff) ∧ r ∈ dependents m x) →
      ∀ r ∈ bfsAux m fuel q aff,
        ∃ x, (x = c ∨ x ∈ bfsAux m fuel q aff) ∧ r ∈ dependents m x := by
  intro fuel
  induction fuel with
  | zero =>
      intro q aff hq haff r hr
      cases q with
      | nil => exact haff r hr
      | cons cur rest => exact haff r hr
  | succ fuel ih =>
      intro q aff hq haff r hr
      cases q with
      | nil =>
          rw [bfs_nil] at hr ⊢
          exact haff r hr
      | cons cur rest =>
          rw [bfs_cons] at hr ⊢
          refine ih _ _ ?_ ?_ r hr
          · intro x hx
            rcases List.mem_append.mp hx with h' | h'
            · exact (hq x (List.mem_cons_of_mem _ h')).imp_right insertAll_fst_mono
            · rcases insertAll_snd_src h' with h'' | h''
              · simp at h''
              · exact Or.inr h''
          · intro s hs
            rcases insertAll_fst_src hs with h' | h'
            · obtain ⟨x, hx, hdep⟩ := haff s h'
              exact ⟨x, hx.imp_right insertAll_fst_mono, hdep⟩
            · exact ⟨cur, (hq cur (List.mem_cons_self _ _)).imp_right
                insertAll_fst_mono, h'⟩

theorem affected_witness (m : DepsMap) (c : String) :
    ∀ r ∈ affectedOf m c,
      ∃ x, (x = c ∨ x ∈ affectedOf m c) ∧ r ∈ dependents m x := by
  refine bfs_witness m c _ [c] [] ?_ ?_
  · intro x hx; exact Or.inl (List.mem_singleton.mp hx)
  · intro r hr; simp at hr

theorem affected_subset_keys (m : DepsMap) (c : String) :
    ∀ r ∈ affectedOf m c, r ∈ m.map Prod.fst :=
  bfs_subset_keys m _ [c] [] (by intro x hx; simp at hx)

theorem affected_empty_iff (m : DepsMap) (c : String) :
    affectedOf m c = [] ↔ dependents m c = [] := by
  unfold affectedOf
  constructor
  · intro h
    by_contra hne
    obtain ⟨d, ds, hds⟩ := List.exists_cons_of_ne_nil hne
    have hd : d ∈ (insertAll (([] : List String), ([] : List String))
        (dependents m c)).1 := insertAll_mem (by simp [hds])
    have : d ∈ bfsAux m (m.length + 1) [c] [] := by
      rw [bfs_cons]
      exact bfs_mono m _ _ _ d hd
    rw [h] at this
    simp at this
  · intro h
    rw [bfs_cons, h]
    simp [insertAll, bfs_nil]

/-! ### Every affected repo has positive induced in-degree.

The guard at flake.rs:66 counts the edge by which the BFS discovered a
repo (its source is `changed` or an affected repo), and `changed` itself
is never seeded into Kahn's queue, so the initial queue is always empty
whenever the affected set is nonempty. -/

theorem inDeg_pos (m : DepsMap) (c : String)
    (hnd : (m.map Prod.fst).Nodup) :
    ∀ r ∈ affectedOf m c, inDegOf m c (affectedOf m c) r ≠ 0 := by
  intro r hr
  obtain ⟨x, hx, hdep⟩ := affected_witness m c r hr
  obtain ⟨ds, hmem, hxds⟩ := mem_dependents.mp hdep
  have hlook : lookupA m r = some ds := lookupA_eq_of_mem hmem hnd
  have hdeps : depsOf m r = ds := by simp [depsOf, hlook]
  have hpred : ((affectedOf m c).contains x || x == c) = true := by
    rcases hx with rfl | hx'
    · simp
    · simp [hx']
  have hpos : 0 < (depsOf m r).countP
      (fun d => (affectedOf m c).contains d || d == c) := by
    rw [hdeps]
    exact List.countP_pos_iff.mpr ⟨x, hxds, hpred⟩
  unfold inDegOf
  omega

theorem kahn_nil (fwd : String → List String) (fuel : Nat)
    (inDeg : List (String × Nat)) (sorted : List String) :
    kahnLoop fwd fuel [] inDeg sorted = sorted := by cases fuel <;> rfl

theorem kahn_cons (fwd : String → List String) (fuel : Nat) (repo : String)
    (rest : List String) (inDeg : List (String × Nat)) (sorted : List String) :
    kahnLoop fwd (fuel + 1) (repo :: rest) inDeg sorted =
      kahnLoop fwd fuel (rest ++ ((fwd repo).foldl decOne (inDeg, [])).2)
        ((fwd repo).foldl decOne (inDeg, [])).1 (sorted ++ [repo]) := rfl

theorem initQueue_nil (m : DepsMap) (c : String)
    (hnd : (m.map Prod.fst).Nodup) : initQueueOf m c = [] := by
  refine List.filter_eq_nil_iff.mpr ?_
  intro r hr
  have h := inDeg_pos m c hnd r hr
  simpa using h

theorem sorted_nil (m : DepsMap) (c : String)
    (hnd : (m.map Prod.fst).Nodup) : sortedOf m c = [] := by
  unfold sortedOf
  rw [initQueue_nil m c hnd, kahn_nil]

/-! ### The planner's observable behaviour.

With a nonempty affected set the sort always comes back empty, so
`compute_update_chain` either returns `Ok([])` (nothing depends on
`changed`) or bails with the cycle error — the step-materialization loop
is unreachable. -/

theorem compute_of_empty (c : String) (m : DepsMap)
    (he : affectedOf m c = []) : compute_update_chain c m = .ok [] := by
  simp [compute_update_chain, he]

theorem compute_of_nonempty (c : String) (m : DepsMap)
    (hnd : (m.map Prod.fst).Nodup) (hne : affectedOf m c ≠ []) :
    compute_update_chain c m =
      .cycleError ((affectedOf m c).filter
        (fun r => !(sortedOf m c).contains r)) := by
  have h2 : sortedOf m c = [] := sorted_nil m c hnd
  have hlen : (affectedOf m c).length ≠ 0 := by
    simpa [List.length_eq_zero] using hne
  have h1 : (affectedOf m c).isEmpty = false := by
    cases h : affectedOf m c with
    | nil => exact absurd h hne
    | cons a l => rfl
  unfold compute_update_chain
  rw [h1, h2]
  simp [bne_iff_ne, Ne.symm hlen]

/-! ### Kahn's sort only ever emits affected repos, and materialization
never hits a missing key (the `.unwrap()` at flake.rs:112). -/

theorem decOne_snd_src (st : List (String × Nat) × List String) (d : String) :
    ∀ x ∈ (decOne st d).2, x ∈ st.2 ∨ x = d := by
  intro x hx
  unfold decOne at hx
  split at hx
  · exact Or.inl hx
  · split at hx
    · rcases List.mem_append.mp hx with h | h
      · exact Or.inl h
      · exact Or.inr (List.mem_singleton.mp h)
    · exact Or.inl hx

theorem decFold_snd_src (l : List String) :
    ∀ (st : List (String × Nat) × List String), ∀ x ∈ (l.foldl decOne st).2,
      x ∈ st.2 ∨ x ∈ l := by
  induction l with
  | nil => intro st x hx; exact Or.inl hx
  | cons d l ih =>
      intro st x hx
      have heq : (d :: l).foldl decOne st = l.foldl decOne (decOne st d) := rfl
      rw [heq] at hx
      rcases ih (decOne st d) x hx with h | h
      · rcases decOne_snd_src st d x h with h' | h'
        · exact Or.inl h'
        · exact Or.inr (by rw [h']; exact List.mem_cons_self _ _)
      · exact Or.inr (List.mem_cons_of_mem _ h)

theorem kahn_subset (fwd : String → List String) (aff : List String)
    (hfwd : ∀ r x, x ∈ fwd r → x ∈ aff) :
    ∀ (fuel : Nat) (q : List String) (inDeg : List (String × Nat))
      (sorted : List String),
      (∀ x ∈ q, x ∈ aff) → (∀ x ∈ sorted, x ∈ aff) →
      ∀ x ∈ kahnLoop fwd fuel q inDeg sorted, x ∈ aff := by
  intro fuel
  induction fuel with
  | zero =>
      intro q inDeg sorted hq hs x hx
      cases q <;> exact hs x hx
  | succ fuel ih =>
      intro q inDeg sorted hq hs x hx
      cases q with
      | nil => exact hs x hx
      | cons repo rest =>
          rw [kahn_cons] at hx
          refine ih _ _ _ ?_ ?_ x hx
          · intro y hy
            rcases List.mem_append.mp hy with h | h
            · exact hq y (List.mem_cons_of_mem _ h)
            · rcases decFold_snd_src _ _ y h with h' | h'
              · simp at h'
              · exact hfwd repo y h'
          · intro y hy
            rcases List.mem_append.mp hy with h | h
            · exact hs y h
            · rw [List.mem_singleton.mp h]
              exact hq repo (List.mem_cons_self _ _)

theorem forwardOf_subset (m : DepsMap) (c : String) (aff : List String)
    (d x : String) (hx : x ∈ forwardOf m c aff d) : x ∈ aff := by
  unfold forwardOf at hx
  rcases List.mem_flatten.mp hx with ⟨l, hl, hxl⟩
  rcases List.mem_map.mp hl with ⟨r, hr, rfl⟩
  rcases List.mem_map.mp hxl with ⟨-, -, rfl⟩
  exact hr

theorem sorted_subset_affected (m : DepsMap) (c : String) :
    ∀ x ∈ sortedOf m c, x ∈ affectedOf m c := by
  intro x hx
  unfold sortedOf at hx
  refine kahn_subset _ _ (forwardOf_subset m c _) _ _ _ _ ?_ ?_ x hx
  · intro y hy
    exact (List.mem_filter.mp hy).1
  · intro y hy
    simp at hy

theorem materialize_isSome (m : DepsMap) :
    ∀ (sorted updated : List String) (steps : List UpdateStep),
      (∀ r ∈ sorted, (lookupA m r).isSome) →
      (materializeSteps m sorted updated steps).isSome := by
  intro sorted
  induction sorted with
  | nil =>
      intro u s _
      simp [materializeSteps]
  | cons r rest ih =>
      intro u s h
      have hr := h r (List.mem_cons_self _ _)
      obtain ⟨ds, hds⟩ := Option.isSome_iff_exists.mp hr
      unfold materializeSteps
      rw [hds]
      have htail : ∀ x ∈ rest, (lookupA m x).isSome :=
        fun x hx => h x (List.mem_cons_of_mem _ hx)
      show (if (ds.filter (fun d => u.contains d)).isEmpty then
              materializeSteps m rest u s
            else materializeSteps m rest (u ++ [r])
              (s ++ [⟨r, ds.filter (fun d => u.contains d)⟩])).isSome = true
      by_cases he : (ds.filter (fun d => u.contains d)).isEmpty = true
      · rw [if_pos he]; exact ih _ _ htail
      · rw [if_neg he]; exact ih _ _ htail

/-- Marks the `.unwrap()` panic outcome. -/
def isPanicked : PlanResult → Bool
  | .panicked => true
  | _ => false

/-- The chain a `PlanResult` carries, if any. -/
def chainOf : PlanResult → Option (List UpdateStep)
  | .ok l => some l
  | .cycleError _ => none
  | .panicked => none

theorem dependents_nil_iff (m : DepsMap) (c : String) :
    dependents m c = [] ↔ ∀ p ∈ m, c ∉ p.2 := by
  unfold dependents
  rw [List.map_eq_nil_iff, List.filter_eq_nil_iff]
  constructor
  · intro h p hp hc
    exact h p hp (List.elem_iff.mpr hc)
  · intro h p hp hc
    exact h p hp (List.elem_iff.mp hc)

/-- An edge of the declared dependency graph: `x` is listed among the
deps of `y`, so updating `x` propagates to `y`. -/
def hasDepEdge (m : DepsMap) (x y : String) : Prop :=
  ∃ ds, lookupA m y = some ds ∧ x ∈ ds

/-- Nonempty paths in the declared dependency graph. -/
inductive DepReach (m : DepsMap) : String → String → Prop where
  | single {x y : String} : hasDepEdge m x y → DepReach m x y
  | tail {x y z : String} : DepReach m x y → hasDepEdge m y z → DepReach m x z

/-! ### Invariants of the step-materialization loop (flake.rs:107-126) -/

theorem materialize_invariant (m : DepsMap) (c : String) :
    ∀ (sorted updated : List String) (steps res : List UpdateStep),
      materializeSteps m sorted updated steps = some res →
      (∀ x ∈ updated, x = c ∨ x ∈ steps.map UpdateStep.repo) →
      (∀ s ∈ steps, s.inputs ≠ [] ∧
        ∀ d ∈ s.inputs, d = c ∨ d ∈ steps.map UpdateStep.repo) →
      ∀ s ∈ res, s.inputs ≠ [] ∧
        ∀ d ∈ s.inputs, d = c ∨ d ∈ res.map UpdateStep.repo := by
  intro sorted
  induction sorted with
  | nil =>
      intro u steps res h hu hs
      simp only [materializeSteps, Option.some.injEq] at h
      subst h
      exact hs
  | cons r rest ih =>
      intro u steps res h hu hs
      unfold materializeSteps at h
      cases hl : lookupA m r with
      | none => rw [hl] at h; exact absurd h (by simp)
      | some ds =>
          rw [hl] at h
          replace h : (if (ds.filter (fun d => u.contains d)).isEmpty then
                materializeSteps m rest u steps
              else materializeSteps m rest (u ++ [r])
                (steps ++ [⟨r, ds.filter (fun d => u.contains d)⟩])) =
              some res := h
          by_cases he : (ds.filter (fun d => u.contains d)).isEmpty = true
          · rw [if_pos he] at h
            exact ih _ _ _ h hu hs
          · rw [if_neg he] at h
            refine ih _ _ _ h ?_ ?_
            · intro x hx
              rcases List.mem_append.mp hx with h' | h'
              · rcases hu x h' with h'' | h''
                · exact Or.inl h''
                · exact Or.inr (by
                    rw [List.map_append]
                    exact List.mem_append_left _ h'')
              · refine Or.inr ?_
                rw [List.mem_singleton.mp h', List.map_append]
                exact List.mem_append_right _ (by simp)
            · intro s hs'
              rcases List.mem_append.mp hs' with h' | h'
              · obtain ⟨hne, hd⟩ := hs s h'
                refine ⟨hne, fun d hdm => ?_⟩
                rcases hd d hdm with h'' | h''
                · exact Or.inl h''
                · exact Or.inr (by
                    rw [List.map_append]
                    exact List.mem_append_left _ h'')
              · rw [List.mem_singleton.mp h']
                constructor
                · intro hnil
                  apply he
                  have hfilter : ds.filter (fun d => u.contains d) = [] := hnil
                  rw [hfilter]
                  rfl
                · intro d hdm
                  have hdu : d ∈ u := List.elem_iff.mp (List.mem_filter.mp hdm).2
                  rcases hu d hdu with h'' | h''
                  · exact Or.inl h''
                  · exact Or.inr (by
                      rw [List.map_append]
                      exact List.mem_append_left _ h'')

/-! ### Claims C1–C5, C9, C10 about the planner -/

/-- C1: the claim fails on the code.  For the acyclic map
`{A: [], B: [A]}` with `changed = A` — a DAG — `compute_update_chain`
does not return `Ok` with the chain `[{B, [A]}]`: the in-degree guard at
flake.rs:66 also counts edges whose source is `changed`, so every
affected repo starts at in-degree ≥ 1, Kahn's queue starts empty, and
the function bails with the cycle error naming `{B}`. -/
theorem plan_dag_rejected :
    compute_update_chain "A" [("A", []), ("B", ["A"])] =
      .cycleError ["B"] := by decide

/-- C2: a dependency map with a cycle among the repos transitively
affected by `changed` makes `compute_update_chain` return the error
naming the affected set minus the topologically sorted set, and no
(partial) chain. -/
theorem plan_cycle_error (c : String) (m : DepsMap)
    (hnd : (m.map Prod.fst).Nodup)
    (hcyc : ∃ r, r ∈ affectedOf m c ∧ DepReach m r r) :
    compute_update_chain c m =
      .cycleError ((affectedOf m c).filter
        (fun r => !(sortedOf m c).contains r)) := by
  obtain ⟨r, hr, -⟩ := hcyc
  exact compute_of_nonempty c m hnd (List.ne_nil_of_mem hr)

theorem plan_cycle_error_witness :
    (∃ r, r ∈ affectedOf [("A", ["B"]), ("B", ["A"])] "A" ∧
        DepReach [("A", ["B"]), ("B", ["A"])] r r) ∧
      compute_update_chain "A" [("A", ["B"]), ("B", ["A"])] =
        .cycleError ((affectedOf [("A", ["B"]), ("B", ["A"])] "A").filter
          (fun r => !(sortedOf [("A", ["B"]), ("B", ["A"])] "A").contains r)) := by
  have hcyc : ∃ r, r ∈ affectedOf [("A", ["B"]), ("B", ["A"])] "A" ∧
      DepReach [("A", ["B"]), ("B", ["A"])] r r := by
    refine ⟨"B", by decide, ?_⟩
    have e1 : hasDepEdge [("A", ["B"]), ("B", ["A"])] "B" "A" :=
      ⟨["B"], rfl, by decide⟩
    have e2 : hasDepEdge [("A", ["B"]), ("B", ["A"])] "A" "B" :=
      ⟨["A"], rfl, by decide⟩
    exact DepReach.tail (DepReach.single e1) e2
  exact ⟨hcyc, plan_cycle_error "A" _ (by decide) hcyc⟩

/-- C3: in the step-materialization loop a repo whose filtered inputs
list is empty produces no step (every emitted step has nonempty inputs)
and is not added to `updated_so_far`, so — not being `changed` and not
being any step's repo — it never occurs among any later step's inputs:
its omission halts propagation through it. -/
theorem materialize_omits_empty_inputs (m : DepsMap) (c : String)
    (sorted : List String) (res : List UpdateStep)
    (h : materializeSteps m sorted [c] [] = some res) :
    (∀ s ∈ res, s.inputs ≠ []) ∧
      (∀ r, r ≠ c → r ∉ res.map UpdateStep.repo →
        ∀ s ∈ res, r ∉ s.inputs) := by
  have hmain := materialize_invariant m c sorted [c] [] res h
    (fun x hx => Or.inl (List.mem_singleton.mp hx))
    (fun s hs => by simp at hs)
  refine ⟨fun s hs => (hmain s hs).1, ?_⟩
  intro r hrc hrm s hs hmem
  rcases (hmain s hs).2 r hmem with h' | h'
  · exact hrc h'
  · exact hrm h'

theorem materialize_omits_empty_inputs_witness :
    materializeSteps [("B", ["A"])] ["B"] ["A"] [] =
        some [UpdateStep.mk "B" ["A"]] ∧
      ((∀ s ∈ [UpdateStep.mk "B" ["A"]], s.inputs ≠ []) ∧
        (∀ r, r ≠ "A" → r ∉ [UpdateStep.mk "B" ["A"]].map UpdateStep.repo →
          ∀ s ∈ [UpdateStep.mk "B" ["A"]], r ∉ s.inputs)) :=
  ⟨by decide, materialize_omits_empty_inputs [("B", ["A"])] "A" ["B"] _ (by decide)⟩

/-- C4: the claim fails on the code.  On `{A: [], B: [A], C: [B, A]}`
with `changed = A` the planner emits no step for `C` at all (no chain is
planned): it bails with the cycle error naming `{B, C}`, instead of the
claimed chain in which `C`'s step lists `A` but not `B`. -/
theorem plan_example_rejected :
    compute_update_chain "A" [("A", []), ("B", ["A"]), ("C", ["B", "A"])] =
      .cycleError ["B", "C"] := by decide

/-- C5: planning is deterministic.  The only call-to-call variation in
the Rust code is hash-map iteration order, modelled as the association
list's order: the returned chain is invariant under permuting the list
(two calls on identical inputs are the reflexive case). -/
theorem plan_deterministic (c : String) (m₁ m₂ : DepsMap)
    (hnd : (m₁.map Prod.fst).Nodup) (hperm : m₁.Perm m₂) :
    chainOf (compute_update_chain c m₁) = chainOf (compute_update_chain c m₂) := by
  have hnd₂ : (m₂.map Prod.fst).Nodup := ((hperm.map Prod.fst).nodup_iff).mp hnd
  by_cases h1 : affectedOf m₁ c = []
  · have hd1 : dependents m₁ c = [] := (affected_empty_iff m₁ c).mp h1
    have hd2 : dependents m₂ c = [] := by
      rw [dependents_nil_iff] at hd1 ⊢
      intro p hp
      exact hd1 p (hperm.mem_iff.mpr hp)
    have h2 : affectedOf m₂ c = [] := (affected_empty_iff m₂ c).mpr hd2
    rw [compute_of_empty c m₁ h1, compute_of_empty c m₂ h2]
  · have h2 : affectedOf m₂ c ≠ [] := by
      intro h2
      apply h1
      have hd2 := (affected_empty_iff m₂ c).mp h2
      refine (affected_empty_iff m₁ c).mpr ?_
      rw [dependents_nil_iff] at hd2 ⊢
      intro p hp
      exact hd2 p (hperm.mem_iff.mp hp)
    rw [compute_of_nonempty c m₁ hnd h1, compute_of_nonempty c m₂ hnd₂ h2]
    rfl

theorem plan_deterministic_witness :
    chainOf (compute_update_chain "A" [("B", ["A"]), ("D", ["A"])]) =
      chainOf (compute_update_chain "A" [("D", ["A"]), ("B", ["A"])]) :=
  plan_deterministic "A" _ _ (by decide)
    (List.Perm.swap ("D", ["A"]) ("B", ["A"]) [])

/-- C9: whenever planning returns `Ok`, the chain has no step whose repo
is the changed repository (with a nonempty affected set planning always
bails, and otherwise the chain is empty). -/
theorem plan_ok_excludes_changed (c : String) (m : DepsMap)
    (chain : List UpdateStep) (hnd : (m.map Prod.fst).Nodup)
    (h : compute_update_chain c m = .ok chain) :
    ∀ s ∈ chain, s.repo ≠ c := by
  by_cases he : affectedOf m c = []
  · rw [compute_of_empty c m he] at h
    injection h with h'
    subst h'
    intro s hs
    simp at hs
  · rw [compute_of_nonempty c m hnd he] at h
    exact PlanResult.noConfusion h

theorem plan_ok_excludes_changed_witness :
    compute_update_chain "A" [("A", ["X"])] = .ok [] ∧
      ∀ s ∈ ([] : List UpdateStep), s.repo ≠ "A" :=
  ⟨by decide, plan_ok_excludes_changed "A" [("A", ["X"])] [] (by decide) (by decide)⟩

/-- C10: the `.unwrap()` in the step-materialization loop never panics:
every repo emitted by Kahn's sort is in the affected set, every affected
repo is a key of the supplied dependency map, so the lookup succeeds. -/
theorem plan_never_panics (c : String) (m : DepsMap) :
    isPanicked (compute_update_chain c m) = false := by
  unfold compute_update_chain
  by_cases h1 : (affectedOf m c).isEmpty = true
  · rw [if_pos h1]; rfl
  · rw [if_neg h1]
    by_cases h2 : ((sortedOf m c).length != (affectedOf m c).length) = true
    · rw [if_pos h2]; rfl
    · rw [if_neg h2]
      have hsub : ∀ r ∈ sortedOf m c, (lookupA m r).isSome := fun r hr =>
        lookupA_isSome (affected_subset_keys m c r (sorted_subset_affected m c r hr))
      obtain ⟨steps, hsteps⟩ := Option.isSome_iff_exists.mp
        (materialize_isSome m (sortedOf m c) [c] [] hsub)
      rw [hsteps]
      rfl

/-! ## The executor: `execute_update_chain` (flake.rs:132-252).

External effects are modelled by an environment giving, per repository,
the outcome of every filesystem check and external command the step
protocol performs.  Display calls (gated on `quiet`) are the excluded
presentation layer; the per-step outcome they would render is modelled
directly as a value.  A `Command` spawn error and a non-zero exit status
abort the run identically in the source (`?` / `bail!`), so each command
carries a single success flag. -/

/-- Per-repository behaviour of the outside world. -/
structure RepoEnv where
  /-- `repo_path.exists()` (flake.rs:145). -/
  pathExists : Bool
  /-- `git status --porcelain` produced empty stdout (flake.rs:241-251). -/
  clean : Bool
  /-- `nix flake update <inputs>` succeeded (flake.rs:170-179). -/
  updateOk : Bool
  /-- `git add flake.lock` succeeded (flake.rs:182-191). -/
  addOk : Bool
  /-- `git diff --cached --quiet` exited 0, i.e. nothing staged (flake.rs:194-200). -/
  diffEmpty : Bool
  /-- `git commit -m …` succeeded (flake.rs:210-219). -/
  commitOk : Bool
  /-- `git push` succeeded (flake.rs:222-231). -/
  pushOk : Bool
deriving DecidableEq

abbrev World := String → RepoEnv

/-- The executor's error cases, in step-protocol order. -/
inductive ExecError where
  | missingRepo (repo : String)
  | dirtyTree (repo : String)
  | updateFailed (repo : String)
  | addFailed (repo : String)
  | commitFailed (repo : String)
  | pushFailed (repo : String)
deriving DecidableEq

/-- Per-step terminal outcome (the event a presentation layer renders). -/
inductive StepOutcome where
  | applied
  | unchanged
  | skipped
deriving DecidableEq

/-- Result of one loop iteration. -/
inductive StepResult where
  | ok (o : StepOutcome)
  | fail (e : ExecError)
deriving DecidableEq

/-- An external command the executor ran. -/
inductive Event where
  | gitStatus (repo : String)
  | nixUpdate (repo : String) (inputs : List String)
  | gitAdd (repo : String)
  | gitDiff (repo : String)
  | gitCommit (repo : String) (msg : String)
  | gitPush (repo : String)
deriving DecidableEq

/-- Body of the per-step loop (flake.rs:141-236): existence check,
dry-run short-circuit, clean-tree precondition, `nix flake update`
scoped to the step's inputs, staging, staged-diff check (empty diff
yields the non-fatal `unchanged` outcome with nothing committed),
commit with the message derived from the input names, push. -/
def exec_step (w : World) (dry_run : Bool) (s : UpdateStep) :
    List Event × StepResult :=
  if !(w s.repo).pathExists then ([], .fail (.missingRepo s.repo))
  else if dry_run then ([], .ok .skipped)
  else if !(w s.repo).clean then
    ([.gitStatus s.repo], .fail (.dirtyTree s.repo))
  else if !(w s.repo).updateOk then
    ([.gitStatus s.repo, .nixUpdate s.repo s.inputs],
      .fail (.updateFailed s.repo))
  else if !(w s.repo).addOk then
    ([.gitStatus s.repo, .nixUpdate s.repo s.inputs, .gitAdd s.repo],
      .fail (.addFailed s.repo))
  else if (w s.repo).diffEmpty then
    ([.gitStatus s.repo, .nixUpdate s.repo s.inputs, .gitAdd s.repo,
        .gitDiff s.repo],
      .ok .unchanged)
  else if !(w s.repo).commitOk then
    ([.gitStatus s.repo, .nixUpdate s.repo s.inputs, .gitAdd s.repo,
        .gitDiff s.repo,
        .gitCommit s.repo ("chore: update " ++ String.intercalate " " s.inputs)],
      .fail (.commitFailed s.repo))
  else if !(w s.repo).pushOk then
    ([.gitStatus s.repo, .nixUpdate s.repo s.inputs, .gitAdd s.repo,
        .gitDiff s.repo,
        .gitCommit s.repo ("chore: update " ++ String.intercalate " " s.inputs),
        .gitPush s.repo],
      .fail (.pushFailed s.repo))
  else
    ([.gitStatus s.repo, .nixUpdate s.repo s.inputs, .gitAdd s.repo,
        .gitDiff s.repo,
        .gitCommit s.repo ("chore: update " ++ String.intercalate " " s.inputs),
        .gitPush s.repo],
      .ok .applied)

/-- Everything a chain execution produced. -/
structure ExecResult where
  events : List Event
  outcomes : List (String × StepOutcome)
  err : Option ExecError
deriving DecidableEq

/-- `execute_update_chain` (flake.rs:132-239): the steps are processed
strictly in chain order; every `bail!` / `?` in the loop body returns
from the whole function, so a failing step's error is returned at once
and no later step is touched. -/
def execute_update_chain (w : World) (chain : List UpdateStep)
    (dry_run : Bool) : ExecResult :=
  match chain with
  | [] => ⟨[], [], none⟩
  | s :: rest =>
      match exec_step w dry_run s with
      | (evs, .fail e) => ⟨evs, [], some e⟩
      | (evs, .ok o) =>
          let r := execute_update_chain w rest dry_run
          ⟨evs ++ r.events, (s.repo, o) :: r.outcomes, r.err⟩

theorem exec_cons_fail (w : World) (dry_run : Bool) (s : UpdateStep)
    (rest : List UpdateStep) (e : ExecError) (evs : List Event)
    (h : exec_step w dry_run s = (evs, .fail e)) :
    execute_update_chain w (s :: rest) dry_run = ⟨evs, [], some e⟩ := by
  simp only [execute_update_chain, h]

theorem exec_cons_ok (w : World) (dry_run : Bool) (s : UpdateStep)
    (rest : List UpdateStep) (o : StepOutcome) (evs : List Event)
    (h : exec_step w dry_run s = (evs, .ok o)) :
    execute_update_chain w (s :: rest) dry_run =
      ⟨evs ++ (execute_update_chain w rest dry_run).events,
        (s.repo, o) :: (execute_update_chain w rest dry_run).outcomes,
        (execute_update_chain w rest dry_run).err⟩ := by
  simp only [execute_update_chain, h]

/-! ### Claims C6–C8 about the executor -/

/-- C6: fail-fast.  If executing a chain produced an error, there is a
first failing step: every earlier step completed with a non-fatal
outcome, the returned error is exactly that step's error, and the event
trace is precisely the earlier steps' commands followed by the failing
step's — no command of any later step is ever attempted. -/
theorem exec_fail_fast (w : World) (chain : List UpdateStep)
    (dry_run : Bool) (e : ExecError)
    (h : (execute_update_chain w chain dry_run).err = some e) :
    ∃ i s rest, chain.drop i = s :: rest ∧
      (∀ t ∈ chain.take i, ∃ o, (exec_step w dry_run t).2 = .ok o) ∧
      (exec_step w dry_run s).2 = .fail e ∧
      (execute_update_chain w chain dry_run).events =
        ((chain.take i).map (fun t => (exec_step w dry_run t).1)).flatten ++
          (exec_step w dry_run s).1 := by
  induction chain with
  | nil => simp [execute_update_chain] at h
  | cons s rest ih =>
      cases hstep : exec_step w dry_run s with
      | mk evs res =>
          cases res with
          | fail e' =>
              rw [exec_cons_fail w dry_run s rest e' evs hstep] at h ⊢
              simp only [Option.some.injEq] at h
              subst h
              refine ⟨0, s, rest, rfl, ?_, ?_, ?_⟩
              · intro t ht; simp at ht
              · rw [hstep]
              · rw [hstep]
                simp
          | ok o =>
              rw [exec_cons_ok w dry_run s rest o evs hstep] at h ⊢
              obtain ⟨i, s', rest', hdrop, hpre, hfail, hev⟩ := ih h
              refine ⟨i + 1, s', rest', hdrop, ?_, hfail, ?_⟩
              · intro t ht
                rcases List.mem_cons.mp (by simpa using ht) with heq | h'
                · subst heq
                  exact ⟨o, by rw [hstep]⟩
                · exact hpre t h'
              · show evs ++ (execute_update_chain w rest dry_run).events = _
                rw [hev, List.take_succ_cons, List.map_cons, List.flatten_cons,
                  hstep, List.append_assoc]

/-- Per-repo environment for the C6 witness: `r2`'s `nix flake update`
fails, everything else succeeds with a nonempty staged diff. -/
def w6 : World := fun r =>
  if r == "r2" then ⟨true, true, false, true, false, true, true⟩
  else ⟨true, true, true, true, false, true, true⟩

def chain6 : List UpdateStep :=
  [⟨"r1", ["lib"]⟩, ⟨"r2", ["r1"]⟩, ⟨"r3", ["r2"]⟩]

theorem exec_fail_fast_witness :
    (execute_update_chain w6 chain6 false).err =
        some (.updateFailed "r2") ∧
      (∃ i s rest, chain6.drop i = s :: rest ∧
        (∀ t ∈ chain6.take i, ∃ o, (exec_step w6 false t).2 = .ok o) ∧
        (exec_step w6 false s).2 = .fail (.updateFailed "r2") ∧
        (execute_update_chain w6 chain6 false).events =
          ((chain6.take i).map (fun t => (exec_step w6 false t).1)).flatten ++
            (exec_step w6 false s).1) :=
  ⟨by decide, exec_fail_fast w6 chain6 false _ (by decide)⟩

/-- C7 (amended): with `dry_run` set the executor runs no external
command at all — in particular no resolution, commit, or push — and,
provided every step's repo directory exists, records every step of the
chain as `skipped`, in chain order, with no error.  (As literally stated
the claim fails when a directory is missing: the existence check at
flake.rs:145 precedes the dry-run short-circuit, so the run aborts and
not every step is recorded as skipped — see the counterexample.) -/
theorem exec_dry_run (w : World) (chain : List UpdateStep) :
    (execute_update_chain w chain true).events = [] ∧
      ((∀ s ∈ chain, (w s.repo).pathExists = true) →
        (execute_update_chain w chain true).outcomes =
            chain.map (fun s => (s.repo, StepOutcome.skipped)) ∧
          (execute_update_chain w chain true).err = none) := by
  induction chain with
  | nil => exact ⟨rfl, fun _ => ⟨rfl, rfl⟩⟩
  | cons s rest ih =>
      by_cases hex : (w s.repo).pathExists = true
      · have hstep : exec_step w true s = ([], .ok .skipped) := by
          unfold exec_step
          rw [hex]
          rfl
        rw [exec_cons_ok w true s rest .skipped [] hstep]
        constructor
        · simpa using ih.1
        · intro hall
          have hr := ih.2 (fun t ht => hall t (List.mem_cons_of_mem _ ht))
          simp [hr.1, hr.2]
      · have hex' : (w s.repo).pathExists = false :=
          Bool.eq_false_iff.mpr hex
        have hstep : exec_step w true s = ([], .fail (.missingRepo s.repo)) := by
          unfold exec_step
          rw [hex']
          rfl
        rw [exec_cons_fail w true s rest _ [] hstep]
        refine ⟨rfl, fun hall => ?_⟩
        exact absurd (hall s (List.mem_cons_self _ _)) hex

/-- World for the C7 witness: every directory exists, every command
would fail if it were ever run — dry-run must not run any. -/
def w7 : World := fun _ => ⟨true, false, false, false, false, false, false⟩

def chain7 : List UpdateStep := [⟨"a", ["x"]⟩, ⟨"b", ["a"]⟩]

theorem exec_dry_run_witness :
    (execute_update_chain w7 chain7 true).events = [] ∧
      (execute_update_chain w7 chain7 true).outcomes =
        chain7.map (fun s => (s.repo, StepOutcome.skipped)) ∧
      (execute_update_chain w7 chain7 true).err = none :=
  ⟨(exec_dry_run w7 chain7).1,
    ((exec_dry_run w7 chain7).2 (by decide)).1,
    ((exec_dry_run w7 chain7).2 (by decide)).2⟩

/-- World for the C7 counterexample: the single step's directory is
missing. -/
def w7m : World := fun _ => ⟨false, true, true, true, true, true, true⟩

/-- C7 counterexample to the claim as stated: with `dry_run` set and one
step whose repo directory does not exist, the step is *not* recorded as
skipped — the run aborts with the missing-repo error (flake.rs:145-147
runs before the dry-run short-circuit at flake.rs:153). -/
theorem exec_dry_run_missing_repo :
    (execute_update_chain w7m [⟨"X", ["A"]⟩] true).outcomes ≠
        [("X", StepOutcome.skipped)] ∧
      (execute_update_chain w7m [⟨"X", ["A"]⟩] true).err =
        some (.missingRepo "X") := by
  exact ⟨by decide, by decide⟩

/-- C8: when a step's staged diff is empty after a successful update and
staging, the step is recorded as `unchanged`, no commit or push command
runs for it, and execution continues with the remaining steps — the
overall result is exactly that of the rest of the chain, not a failure. -/
theorem exec_unchanged_continues (w : World) (s : UpdateStep)
    (rest : List UpdateStep)
    (h1 : (w s.repo).pathExists = true) (h2 : (w s.repo).clean = true)
    (h3 : (w s.repo).updateOk = true) (h4 : (w s.repo).addOk = true)
    (h5 : (w s.repo).diffEmpty = true) :
    execute_update_chain w (s :: rest) false =
      ⟨[.gitStatus s.repo, .nixUpdate s.repo s.inputs, .gitAdd s.repo,
          .gitDiff s.repo] ++ (execute_update_chain w rest false).events,
        (s.repo, .unchanged) :: (execute_update_chain w rest false).outcomes,
        (execute_update_chain w rest false).err⟩ := by
  have hstep : exec_step w false s =
      ([.gitStatus s.repo, .nixUpdate s.repo s.inputs, .gitAdd s.repo,
        .gitDiff s.repo], .ok .unchanged) := by
    unfold exec_step
    rw [h1, h2, h3, h4, h5]
    rfl
  exact exec_cons_ok w false s rest .unchanged _ hstep

/-- World for the C8 witness: all commands succeed and the staged diff
is empty. -/
def w8 : World := fun _ => ⟨true, true, true, true, true, true, true⟩

theorem exec_unchanged_continues_witness :
    (w8 "r1").pathExists = true ∧ (w8 "r1").clean = true ∧
      (w8 "r1").updateOk = true ∧ (w8 "r1").addOk = true ∧
      (w8 "r1").diffEmpty = true ∧
      execute_update_chain w8 [⟨"r1", ["lib"]⟩] false =
        ⟨[.gitStatus "r1", .nixUpdate "r1" ["lib"], .gitAdd "r1",
            .gitDiff "r1"] ++ (execute_update_chain w8 [] false).events,
          ("r1", .unchanged) :: (execute_update_chain w8 [] false).outcomes,
          (execute_update_chain w8 [] false).err⟩ :=
  ⟨rfl, rfl, rfl, rfl, rfl,
    exec_unchanged_continues w8 ⟨"r1", ["lib"]⟩ [] rfl rfl rfl rfl rfl⟩
